import Mathlib

/-!
Verification of the hierarchical-clustering core of the mall-customers
repository.  The notebook delegates the clustering algorithms to library
calls (`linkage`, `fcluster`, `silhouette_score`); the spec (sections 4.1
to 4.4) describes those components, so they are modelled here from the
spec's words, while the comparative grid loop, which appears verbatim in
the notebook, is embedded from the source.
-/

namespace HierClust

/-- Error taxonomy of the specification (section 7). -/
inductive Err where
  | structuralInput
  | incompatibleMetric
  | invalidClusterCount
  | degenerateVector
  | singleCluster
deriving DecidableEq

/-- One merge record of a MergeTree: the ids of the two merged clusters, the
inter-cluster distance at which they merged, and the size of the resulting
cluster (spec section 3, MergeTree). -/
structure MergeRec (α : Type) where
  left : ℕ
  right : ℕ
  dist : α
  size : ℕ
deriving DecidableEq

/-- A live cluster during agglomeration: its id and the list of original
observation indices it contains. -/
structure Cluster where
  cid : ℕ
  members : List ℕ
deriving DecidableEq

/-- The four linkage criteria of the spec (section 4.2). -/
inductive LinkMethod where
  | single
  | complete
  | average
  | ward
deriving DecidableEq

/-- The three distance metrics of the comparative grid; `cityblock` is
Manhattan, as in the notebook. -/
inductive DistMetric where
  | euclidean
  | cityblock
  | cosine
deriving DecidableEq

variable {α : Type} [LinearOrderedField α]

/-- Minimum of a list, 0 on the empty list. -/
def minList : List α → α
  | [] => 0
  | h :: t => t.foldl min h

/-- Maximum of a list, 0 on the empty list. -/
def maxList : List α → α
  | [] => 0
  | h :: t => t.foldl max h

/-- All distances between a member of `a` and a member of `b`. -/
def crossDists (d : ℕ → ℕ → α) (a b : List ℕ) : List α :=
  a.flatMap (fun x => b.map (fun y => d x y))

/-- Componentwise sum of two vectors. -/
def vadd (x y : List α) : List α := List.zipWith (· + ·) x y

/-- Centroid (componentwise mean) of the feature vectors of `ms`. -/
def centroid (X : ℕ → List α) (ms : List ℕ) : List α :=
  match ms with
  | [] => []
  | m :: rest => (rest.foldl (fun acc j => vadd acc (X j)) (X m)).map
      (fun t => t / (ms.length : α))

/-- Squared Euclidean distance between two vectors. -/
def sqDist (x y : List α) : α := (List.zipWith (fun a b => (a - b) * (a - b)) x y).sum

/-- Modelled from the spec (section 4.2, ward): the increase in within-cluster
variance caused by merging, computed from centroids and sizes. -/
def wardDist (X : ℕ → List α) (a b : List ℕ) : α :=
  ((a.length : α) * (b.length : α) / ((a.length : α) + (b.length : α))) *
    sqDist (centroid X a) (centroid X b)

/-- Modelled from the spec (section 4.2): the inter-cluster distance under each
linkage rule, from the base distance `d` (and the feature matrix `X`, for
ward). -/
def clusterDist (meth : LinkMethod) (d : ℕ → ℕ → α) (X : ℕ → List α)
    (A B : Cluster) : α :=
  match meth with
  | .single => minList (crossDists d A.members B.members)
  | .complete => maxList (crossDists d A.members B.members)
  | .average => (crossDists d A.members B.members).sum /
      ((A.members.length : α) * (B.members.length : α))
  | .ward => wardDist X A.members B.members

/-- All unordered pairs of live clusters, enumerated with the earlier cluster
first; since the live list is kept sorted by id, this enumeration is in
lexicographic id order. -/
def candPairs : List Cluster → List (Cluster × Cluster)
  | [] => []
  | c :: rest => rest.map (fun c2 => (c, c2)) ++ candPairs rest

/-- The first pair of minimal inter-cluster distance: ties are broken in favor
of the earliest pair in the enumeration, i.e. the lowest cluster-id pair
(spec section 4.2, determinism tie-break). -/
def pickBest (cd : Cluster → Cluster → α) (ps : List (Cluster × Cluster)) :
    Option (Cluster × Cluster × α) :=
  ps.foldl (fun acc p =>
    match acc with
    | none => some (p.1, p.2, cd p.1 p.2)
    | some (_, _, bd) => if cd p.1 p.2 < bd then some (p.1, p.2, cd p.1 p.2) else acc)
    none

/-- The member list of the live cluster with id `i` (empty if absent). -/
def membersOf (s : List Cluster) (i : ℕ) : List ℕ :=
  match s.find? (fun c => c.cid == i) with
  | some c => c.members
  | none => []

/-- Remove the two clusters with ids `l` and `r` and append the merged cluster
under the fresh id `newId`. -/
def applyMerge (s : List Cluster) (l r newId : ℕ) : List Cluster :=
  s.filter (fun c => decide (c.cid ≠ l ∧ c.cid ≠ r)) ++
    [⟨newId, membersOf s l ++ membersOf s r⟩]

/-- One agglomeration step: pick the pair of live clusters of minimal
inter-cluster distance, record the merge, and update the live set. -/
def step (cd : Cluster → Cluster → α) (s : List Cluster) (newId : ℕ) :
    Option (MergeRec α × List Cluster) :=
  match pickBest cd (candPairs s) with
  | none => none
  | some (a, b, dv) =>
    some (⟨a.cid, b.cid, dv, (membersOf s a.cid).length + (membersOf s b.cid).length⟩,
      applyMerge s a.cid b.cid newId)

/-- Run `fuel` agglomeration steps, returning the merge records and the final
live set. -/
def runSteps (cd : Cluster → Cluster → α) :
    ℕ → List Cluster → ℕ → List (MergeRec α) × List Cluster
  | 0, s, _ => ([], s)
  | fuel + 1, s, nid =>
    match step cd s nid with
    | none => ([], s)
    | some (r, s2) =>
      let p := runSteps cd fuel s2 (nid + 1)
      (r :: p.1, p.2)

/-- The initial live set: n singletons with ids 0..n-1. -/
def initState (n : ℕ) : List Cluster := (List.range n).map (fun i => ⟨i, [i]⟩)

/-- Modelled from the spec (section 4.2): the generic agglomerative procedure,
performing n-1 merges from n singletons. -/
def buildLinkage (cd : Cluster → Cluster → α) (n : ℕ) : List (MergeRec α) :=
  (runSteps cd (n - 1) (initState n) n).1

/-- Modelled from the spec (section 4.2): LinkageBuilder, absent from the
repository sources (the notebook calls the library routine `linkage`). -/
def linkageBuilder (meth : LinkMethod) (d : ℕ → ℕ → α) (X : ℕ → List α) (n : ℕ) :
    List (MergeRec α) :=
  buildLinkage (clusterDist meth d X) n

/-- Replay a list of merge records over a live set, assigning fresh ids from
`nid` upward. -/
def replay : List (MergeRec α) → List Cluster → ℕ → List Cluster
  | [], s, _ => s
  | r :: rest, s, nid => replay rest (applyMerge s r.left r.right nid) (nid + 1)

/-- The id of the (first) live cluster containing observation `j`. -/
def clusterOfObs (s : List Cluster) (j : ℕ) : ℕ :=
  match s.find? (fun c => c.members.contains j) with
  | some c => c.cid
  | none => 0

/-- Relabel cluster ids by first-appearance order, with labels 1, 2, ... -/
def labelLoop : List ℕ → List (ℕ × ℕ) → List ℕ
  | [], _ => []
  | c :: rest, seen =>
    match seen.find? (fun p => p.1 == c) with
    | some p => p.2 :: labelLoop rest seen
    | none => (seen.length + 1) :: labelLoop rest (seen ++ [(c, seen.length + 1)])

/-- Labels assigned by first-appearance order when walking observations in
original index order (spec section 4.3). -/
def assignLabels (cs : List ℕ) : List ℕ := labelLoop cs []

/-- Modelled from the spec (section 4.3): ClusterExtractor by count, absent
from the repository sources (the notebook calls the library routine
`fcluster`).  Applies the first n-k merges in recorded order and labels the
remaining clusters by first appearance; fails when k is outside [1, n]. -/
def fclusterByCount (recs : List (MergeRec α)) (n k : ℕ) : Except Err (List ℕ) :=
  if k < 1 ∨ n < k then .error .invalidClusterCount
  else .ok (assignLabels ((List.range n).map
    (clusterOfObs (replay (recs.take (n - k)) (initState n) n))))

/-- The cluster ids used as merge operands, in order. -/
def operands (recs : List (MergeRec α)) : List ℕ :=
  recs.flatMap (fun r => [r.left, r.right])

/-- The size registered for cluster id `i` by a merge-record list over `n`
observations: singletons have size 1, merged clusters the recorded size. -/
def sizeOfId (n : ℕ) (recs : List (MergeRec α)) (i : ℕ) : ℕ :=
  if i < n then 1 else ((recs[i - n]?).map MergeRec.size).getD 0

/-- The invariant of the live set during agglomeration over `n` observations:
ids are distinct and below the next fresh id, member lists are nonempty, and
the members of the live clusters partition the observations. -/
structure Inv (s : List Cluster) (nid n : ℕ) : Prop where
  nodup : (s.map Cluster.cid).Nodup
  lt : ∀ c ∈ s, c.cid < nid
  nonempty : ∀ c ∈ s, c.members ≠ []
  perm : ((s.map Cluster.members).flatten).Perm (List.range n)

/-- Mean of a list of field elements (0 on the empty list, since the cast of
its length is 0 and division by zero is 0). -/
def meanL (l : List α) : α := l.sum / (l.length : α)

/-- Mean distance from point `i` to the other points of its own cluster; 0
when the cluster is a singleton (spec section 4.4, a(i)). -/
def silA (d : ℕ → ℕ → α) (labels : List ℕ) (i : ℕ) : α :=
  let same := (List.range labels.length).filter
    (fun j => decide (j ≠ i ∧ labels.getD j 0 = labels.getD i 0))
  if same = [] then 0 else meanL (same.map (d i))

/-- Minimum over the other clusters of the mean distance from point `i` to
that cluster's points (spec section 4.4, b(i)). -/
def silB (d : ℕ → ℕ → α) (labels : List ℕ) (i : ℕ) : α :=
  let others := labels.dedup.filter (fun L => decide (L ≠ labels.getD i 0))
  minList (others.map (fun L =>
    meanL (((List.range labels.length).filter
      (fun j => decide (labels.getD j 0 = L))).map (d i))))

/-- The silhouette value of point `i`, defined as 0 when a(i) = b(i) = 0
(spec section 4.4). -/
def silPoint (d : ℕ → ℕ → α) (labels : List ℕ) (i : ℕ) : α :=
  let a := silA d labels i
  let b := silB d labels i
  if max a b = 0 then 0 else (b - a) / max a b

/-- Modelled from the spec (section 4.4): SilhouetteScorer, absent from the
repository sources (the notebook calls the library routine
`silhouette_score`).  Fails with SingleClusterError on fewer than 2 distinct
clusters; otherwise returns the mean of the per-point silhouette values. -/
def silhouetteScore (d : ℕ → ℕ → α) (labels : List ℕ) : Except Err α :=
  if labels.dedup.length < 2 then .error .singleCluster
  else .ok (meanL ((List.range labels.length).map (silPoint d labels)))

/-- Dot product of two rational vectors. -/
def dotL (x y : List ℚ) : ℚ := (List.zipWith (· * ·) x y).sum

/-- Squared Euclidean norm of a rational vector. -/
def normSq (x : List ℚ) : ℚ := dotL x x

/-- Modelled from the spec (section 4.1, cosine): cosine dissimilarity with an
explicit zero-norm guard, absent from the repository sources (the notebook
passes the cosine metric to library routines).  Fails with
DegenerateVectorError when either vector has zero norm; otherwise returns
1 - (x.y)/(|x| |y|). -/
noncomputable def cosineDist (x y : List ℚ) : Except Err ℝ :=
  if normSq x = 0 ∨ normSq y = 0 then .error .degenerateVector
  else .ok (1 - (dotL x y : ℝ) /
    (Real.sqrt ((normSq x : ℚ) : ℝ) * Real.sqrt ((normSq y : ℚ) : ℝ)))

/-- One row of the comparative study: (linkage method, distance metric,
silhouette score). -/
abbrev Row (α : Type) := LinkMethod × DistMetric × α

/-- The list of linkage methods of the comparative grid, in the notebook's
order. -/
def linkage_methods : List LinkMethod :=
  [.single, .complete, .average, .ward]

/-- The list of distance metrics of the comparative grid, in the notebook's
order. -/
def distance_metrics : List DistMetric :=
  [.euclidean, .cityblock, .cosine]

/-- The notebook's skip condition: ward linkage with a non-Euclidean metric. -/
def skipPair (m : LinkMethod) (met : DistMetric) : Prop :=
  m = .ward ∧ met ≠ .euclidean

instance (m : LinkMethod) (met : DistMetric) : Decidable (skipPair m met) := by
  unfold skipPair
  infer_instance

/-- The inner loop of the notebook's comparative grid: iterate the metrics for
a fixed method, skipping ward with a non-Euclidean metric, appending one row
per evaluated configuration; an error in an evaluation propagates (the
notebook's loop body has no exception handler). -/
def runMetrics (eval : LinkMethod → DistMetric → Except Err α) (m : LinkMethod) :
    List DistMetric → List (Row α) → Except Err (List (Row α))
  | [], acc => .ok acc
  | met :: rest, acc =>
    if skipPair m met then runMetrics eval m rest acc
    else
      match eval m met with
      | .error e => .error e
      | .ok q => runMetrics eval m rest (acc ++ [(m, met, q)])

/-- The outer loop of the notebook's comparative grid. -/
def runMethods (eval : LinkMethod → DistMetric → Except Err α) :
    List LinkMethod → List (Row α) → Except Err (List (Row α))
  | [], acc => .ok acc
  | m :: rest, acc =>
    match runMetrics eval m distance_metrics acc with
    | .error e => .error e
    | .ok acc2 => runMethods eval rest acc2

/-- The notebook's comparative grid loop (source cell "Comparative Study"):
methods outer, metrics inner, ward + non-Euclidean skipped by `continue`,
results accumulated in iteration order; an uncaught error aborts the loop. -/
def runGrid (eval : LinkMethod → DistMetric → Except Err α) :
    Except Err (List (Row α)) :=
  runMethods eval linkage_methods []

/-- The expected output of the grid when every evaluation succeeds: methods
outer, metrics inner, skipped pairs omitted, one row per remaining
configuration, in iteration order. -/
def gridRows (score : LinkMethod → DistMetric → α) : List (Row α) :=
  linkage_methods.flatMap (fun m =>
    distance_metrics.filterMap (fun met =>
      if skipPair m met then none else some (m, met, score m met)))

/-- The body of the notebook's grid loop for one (method, metric) cell: build
the linkage under the metric's distance function, cut it at k clusters, and
score the labels under the same metric's distance function, exactly as the
notebook passes the one `metric` variable to both `linkage` and
`silhouette_score`. -/
def evalConfig (dOf : DistMetric → ℕ → ℕ → α) (X : ℕ → List α) (n k : ℕ)
    (m : LinkMethod) (met : DistMetric) : Except Err α :=
  match fclusterByCount (linkageBuilder m (dOf met) X n) n k with
  | .error e => .error e
  | .ok labels => silhouetteScore (dOf met) labels

/-- The 6-point one-dimensional dataset of the end-to-end scenario (spec
section 8, property 7). -/
def ptsE2E : ℕ → ℤ := fun i => [(0 : ℤ), 1, 2, 10, 11, 12].getD i 0

/-- The distance matrix of the 6-point dataset: the absolute difference of
the two points, i.e. their one-dimensional Euclidean (= Manhattan)
distance. -/
def dE2E : ℕ → ℕ → ℚ := fun i j => ((ptsE2E i - ptsE2E j).natAbs : ℚ)

/-- The single-linkage merge tree of the 6-point dataset. -/
def recsE2E : List (MergeRec ℚ) := linkageBuilder .single dE2E (fun _ => []) 6

/-- A concrete two-point distance matrix used to instantiate theorems with
hypotheses. -/
def dTwo : ℕ → ℕ → ℚ := fun i j => if i = j then 0 else 1

/-- A concrete one-dimensional feature matrix used to instantiate theorems
with hypotheses. -/
def xTwo : ℕ → List ℚ := fun _ => [0]

/-- A grid evaluation that always succeeds, used to instantiate theorems with
hypotheses. -/
def evalZero : LinkMethod → DistMetric → Except Err ℚ := fun _ _ => .ok 0

/-- A grid evaluation that fails with a genuine DegenerateVectorError on the
(single, cosine) configuration and succeeds elsewhere. -/
def evalBad : LinkMethod → DistMetric → Except Err ℚ := fun m met =>
  if m = .single ∧ met = .cosine then .error .degenerateVector else .ok 0

end HierClust

deriving instance DecidableEq for Except

namespace HierClust

section BasicLemmas

variable {α : Type} [LinearOrderedField α]

theorem candPairs_split {s : List Cluster} {a b : Cluster}
    (h : (a, b) ∈ candPairs s) :
    ∃ l1 l2 l3, s = l1 ++ a :: (l2 ++ b :: l3) := by
  induction s with
  | nil => simp [candPairs] at h
  | cons c rest ih =>
    simp only [candPairs, List.mem_append, List.mem_map] at h
    rcases h with ⟨c2, hc2, heq⟩ | h
    · obtain ⟨rfl, rfl⟩ : c = a ∧ c2 = b := by
        constructor <;> [exact congrArg Prod.fst heq; exact congrArg Prod.snd heq]
      obtain ⟨l2, l3, rfl⟩ := List.append_of_mem hc2
      exact ⟨[], l2, l3, rfl⟩
    · obtain ⟨l1, l2, l3, rfl⟩ := ih h
      exact ⟨c :: l1, l2, l3, rfl⟩

theorem candPairs_ne_nil {s : List Cluster} (h : 2 ≤ s.length) :
    candPairs s ≠ [] := by
  match s, h with
  | c :: c2 :: rest, _ => simp [candPairs]

theorem pickBest_fold_eq {cd : Cluster → Cluster → α} :
    ∀ (ps : List (Cluster × Cluster)) (acc : Option (Cluster × Cluster × α))
      {a b : Cluster} {dv : α},
      ps.foldl (fun acc p =>
        match acc with
        | none => some (p.1, p.2, cd p.1 p.2)
        | some (_, _, bd) =>
            if cd p.1 p.2 < bd then some (p.1, p.2, cd p.1 p.2) else acc) acc =
        some (a, b, dv) →
      acc = some (a, b, dv) ∨ ((a, b) ∈ ps ∧ dv = cd a b) := by
  intro ps
  induction ps with
  | nil => intro acc a b dv h; exact Or.inl h
  | cons p rest ih =>
    intro acc a b dv h
    rcases ih _ h with h2 | h2
    · match acc with
      | none =>
        simp only at h2
        obtain ⟨rfl, rfl, rfl⟩ : p.1 = a ∧ p.2 = b ∧ cd p.1 p.2 = dv := by
          injection h2 with h2
          exact ⟨congrArg Prod.fst h2, congrArg (fun q => q.2.1) h2,
            congrArg (fun q => q.2.2) h2⟩
        exact Or.inr ⟨by simp, rfl⟩
      | some (x, y, v) =>
        simp only at h2
        by_cases hlt : cd p.1 p.2 < v
        · rw [if_pos hlt] at h2
          obtain ⟨rfl, rfl, rfl⟩ : p.1 = a ∧ p.2 = b ∧ cd p.1 p.2 = dv := by
            injection h2 with h2
            exact ⟨congrArg Prod.fst h2, congrArg (fun q => q.2.1) h2,
              congrArg (fun q => q.2.2) h2⟩
          exact Or.inr ⟨by simp, rfl⟩
        · rw [if_neg hlt] at h2
          exact Or.inl h2
    · exact Or.inr ⟨List.mem_cons_of_mem _ h2.1, h2.2⟩

theorem pickBest_eq_some {cd : Cluster → Cluster → α}
    {ps : List (Cluster × Cluster)} {a b : Cluster} {dv : α}
    (h : pickBest cd ps = some (a, b, dv)) :
    (a, b) ∈ ps ∧ dv = cd a b := by
  rcases pickBest_fold_eq ps none h with h2 | h2
  · exact absurd h2 (by simp)
  · exact h2

theorem pickBest_fold_isSome {cd : Cluster → Cluster → α} :
    ∀ (ps : List (Cluster × Cluster)) (acc : Option (Cluster × Cluster × α)),
      acc.isSome →
      (ps.foldl (fun acc p =>
        match acc with
        | none => some (p.1, p.2, cd p.1 p.2)
        | some (_, _, bd) =>
            if cd p.1 p.2 < bd then some (p.1, p.2, cd p.1 p.2) else acc) acc).isSome := by
  intro ps
  induction ps with
  | nil => intro acc h; exact h
  | cons p rest ih =>
    intro acc h
    apply ih
    match acc with
    | none => simp
    | some (x, y, v) =>
      by_cases hlt : cd p.1 p.2 < v <;> simp [hlt]

theorem pickBest_isSome {cd : Cluster → Cluster → α}
    {ps : List (Cluster × Cluster)} (h : ps ≠ []) :
    (pickBest cd ps).isSome := by
  match ps, h with
  | p :: rest, _ =>
    unfold pickBest
    rw [List.foldl_cons]
    exact pickBest_fold_isSome rest _ (by simp)

theorem find?_cid_eq {l1 l2 : List Cluster} {a : Cluster} {i : ℕ}
    (hne : ∀ c ∈ l1, c.cid ≠ i) (hai : a.cid = i) :
    (l1 ++ a :: l2).find? (fun c => c.cid == i) = some a := by
  induction l1 with
  | nil => simp [List.find?_cons_of_pos, hai]
  | cons c rest ih =>
    rw [List.cons_append, List.find?_cons_of_neg, ih (fun x hx => hne x (by simp [hx]))]
    simp [hne c (by simp)]

theorem membersOf_eq {s l1 l2 : List Cluster} {a : Cluster}
    (hs : s = l1 ++ a :: l2) (hne : ∀ c ∈ l1, c.cid ≠ a.cid) :
    membersOf s a.cid = a.members := by
  subst hs
  unfold membersOf
  rw [find?_cid_eq hne rfl]

theorem no_pair_sublist {x : ℕ} {u : List ℕ} (hn : u.Nodup)
    (hsub : List.Sublist [x, x] u) : False := by
  have h1 := hsub.count_le x
  have h2 := List.nodup_iff_count_le_one.mp hn x
  rw [List.count_cons_self, List.count_cons_self, List.count_nil] at h1
  omega

theorem nodup_cid_facts {l1 l2 l3 : List Cluster} {a b : Cluster}
    (h : ((l1 ++ a :: (l2 ++ b :: l3)).map Cluster.cid).Nodup) :
    a.cid ≠ b.cid ∧
      ∀ c, (c ∈ l1 ∨ c ∈ l2 ∨ c ∈ l3) → c.cid ≠ a.cid ∧ c.cid ≠ b.cid := by
  have pair : ∀ c c' : Cluster, List.Sublist [c, c'] (l1 ++ a :: (l2 ++ b :: l3)) →
      c.cid ≠ c'.cid := by
    intro c c' hsub he
    exact no_pair_sublist h (by simpa [he] using hsub.map Cluster.cid)
  have hbm : b ∈ l2 ++ b :: l3 := by simp
  constructor
  · exact pair a b
      ((List.nil_sublist l1).append ((List.singleton_sublist.mpr hbm).cons₂ a))
  · intro c hc
    rcases hc with hc | hc | hc
    · constructor
      · exact pair c a ((List.singleton_sublist.mpr hc).append
          ((List.nil_sublist _).cons₂ a))
      · exact pair c b ((List.singleton_sublist.mpr hc).append
          ((List.singleton_sublist.mpr hbm).cons a))
    · constructor
      · intro he
        refine pair a c ((List.nil_sublist l1).append
          (((List.singleton_sublist.mpr (by simp [hc])).cons₂ a))) he.symm
      · exact pair c b ((List.nil_sublist l1).append
          (((List.singleton_sublist.mpr hc).append
            (List.singleton_sublist.mpr (by simp))).cons a))
    · constructor
      · intro he
        refine pair a c ((List.nil_sublist l1).append
          (((List.singleton_sublist.mpr (by simp [hc])).cons₂ a))) he.symm
      · intro he
        refine pair b c ((List.nil_sublist l1).append
          ((((List.nil_sublist l2).append
            ((List.singleton_sublist.mpr hc).cons₂ b))).cons a)) he.symm

theorem filter_merge_eq {l1 l2 l3 : List Cluster} {a b : Cluster}
    (hfacts : ∀ c, (c ∈ l1 ∨ c ∈ l2 ∨ c ∈ l3) → c.cid ≠ a.cid ∧ c.cid ≠ b.cid) :
    (l1 ++ a :: (l2 ++ b :: l3)).filter
        (fun c => decide (c.cid ≠ a.cid ∧ c.cid ≠ b.cid)) = l1 ++ (l2 ++ l3) := by
  rw [List.filter_append, List.filter_cons_of_neg (by simp), List.filter_append,
    List.filter_cons_of_neg (by simp)]
  rw [List.filter_eq_self.mpr (fun c hc => by simp [hfacts c (Or.inl hc)]),
    List.filter_eq_self.mpr (fun c hc => by simp [hfacts c (Or.inr (Or.inl hc))]),
    List.filter_eq_self.mpr (fun c hc => by simp [hfacts c (Or.inr (Or.inr hc))])]

theorem flatten_merge_perm {l1 l2 l3 : List Cluster} {a b : Cluster} {nid : ℕ} :
    (((l1 ++ (l2 ++ l3)) ++ [Cluster.mk nid (a.members ++ b.members)]).map
        Cluster.members).flatten.Perm
      ((l1 ++ a :: (l2 ++ b :: l3)).map Cluster.members).flatten := by
  apply List.perm_iff_count.mpr
  intro x
  simp only [List.map_append, List.map_cons, List.flatten_append, List.flatten_cons,
    List.map_nil, List.flatten_nil, List.count_append, List.append_nil]
  omega

theorem step_spec {cd : Cluster → Cluster → α} {s : List Cluster} {nid n : ℕ}
    (hinv : Inv s nid n) (hlen : 2 ≤ s.length) :
    ∃ rec s2, step cd s nid = some (rec, s2) ∧
      s2 = applyMerge s rec.left rec.right nid ∧
      s2.length + 1 = s.length ∧
      Inv s2 (nid + 1) n ∧
      rec.left ∈ s.map Cluster.cid ∧
      rec.right ∈ s.map Cluster.cid ∧
      rec.left ≠ rec.right ∧
      (∀ x ∈ s2.map Cluster.cid,
        (x ∈ s.map Cluster.cid ∧ x ≠ rec.left ∧ x ≠ rec.right) ∨ x = nid) ∧
      rec.size = (membersOf s rec.left).length + (membersOf s rec.right).length ∧
      (∃ a, a ∈ s ∧ a.cid = rec.left ∧ membersOf s rec.left = a.members) ∧
      (∃ b, b ∈ s ∧ b.cid = rec.right ∧ membersOf s rec.right = b.members) ∧
      (s.length = 2 → rec.size = ((s.map Cluster.members).flatten).length) := by
  obtain ⟨⟨a, b, dv⟩, hpick⟩ :=
    Option.isSome_iff_exists.mp (@pickBest_isSome α _ cd (candPairs s) (candPairs_ne_nil hlen))
  obtain ⟨hmem, hdv⟩ := pickBest_eq_some hpick
  obtain ⟨l1, l2, l3, hs⟩ := candPairs_split hmem
  obtain ⟨hab, hfacts⟩ := nodup_cid_facts (hs ▸ hinv.nodup)
  have hma : membersOf s a.cid = a.members :=
    membersOf_eq hs (fun c hc => (hfacts c (Or.inl hc)).1)
  have hs' : s = (l1 ++ a :: l2) ++ b :: l3 := by simp [hs]
  have hmb : membersOf s b.cid = b.members := by
    refine membersOf_eq hs' (fun c hc => ?_)
    rcases List.mem_append.mp hc with hc | hc
    · exact (hfacts c (Or.inl hc)).2
    · rcases List.mem_cons.mp hc with rfl | hc
      · exact hab
      · exact (hfacts c (Or.inr (Or.inl hc))).2
  have hfil : s.filter (fun c => decide (c.cid ≠ a.cid ∧ c.cid ≠ b.cid)) =
      l1 ++ (l2 ++ l3) := by
    rw [hs]; exact filter_merge_eq hfacts
  have hs2 : applyMerge s a.cid b.cid nid =
      (l1 ++ (l2 ++ l3)) ++ [⟨nid, a.members ++ b.members⟩] := by
    unfold applyMerge
    rw [hfil, hma, hmb]
  have hstep : step cd s nid =
      some (⟨a.cid, b.cid, dv,
        (membersOf s a.cid).length + (membersOf s b.cid).length⟩,
        applyMerge s a.cid b.cid nid) := by
    unfold step
    rw [hpick]
  have hamem : a ∈ s := by rw [hs]; simp
  have hbmem : b ∈ s := by rw [hs]; simp
  have hlensum : s.length = l1.length + l2.length + l3.length + 2 := by
    rw [hs]; simp; omega
  have hsub : List.Sublist (l1 ++ (l2 ++ l3)) s := by
    rw [hs]
    exact (List.Sublist.refl l1).append
      (((List.Sublist.refl l2).append ((List.Sublist.refl l3).cons b)).cons a)
  have hmemsub : ∀ c ∈ l1 ++ (l2 ++ l3), c ∈ s := fun c hc => hsub.mem hc
  refine ⟨_, _, hstep, rfl, ?_, ?_, ?_, ?_, hab, ?_, rfl,
    ⟨a, hamem, rfl, hma⟩, ⟨b, hbmem, rfl, hmb⟩, ?_⟩
  · rw [hs2, hlensum]
    simp only [List.length_append, List.length_cons, List.length_nil]
    omega
  · constructor
    · rw [hs2, List.map_append, List.nodup_append]
      refine ⟨hinv.nodup.sublist (hsub.map Cluster.cid), by simp, ?_⟩
      intro x hx
      simp only [List.mem_map] at hx
      obtain ⟨c, hc, rfl⟩ := hx
      have := hinv.lt c (hmemsub c hc)
      simp only [List.map_cons, List.map_nil, List.mem_singleton]
      omega
    · intro c hc
      rw [hs2] at hc
      rcases List.mem_append.mp hc with hc | hc
      · exact Nat.lt_succ_of_lt (hinv.lt c (hmemsub c hc))
      · simp at hc
        subst hc
        exact Nat.lt_succ_self nid
    · intro c hc
      rw [hs2] at hc
      rcases List.mem_append.mp hc with hc | hc
      · exact hinv.nonempty c (hmemsub c hc)
      · simp at hc
        subst hc
        simp only
        intro habs
        exact hinv.nonempty a hamem (List.append_eq_nil.mp habs).1
    · rw [hs2]
      refine List.Perm.trans flatten_merge_perm ?_
      rw [← hs]
      exact hinv.perm
  · rw [hs]; simp
  · rw [hs']; simp
  · intro x hx
    rw [hs2, List.map_append] at hx
    rcases List.mem_append.mp hx with hx | hx
    · obtain ⟨c, hc, rfl⟩ := List.mem_map.mp hx
      have h1 : c.cid ≠ a.cid ∧ c.cid ≠ b.cid := by
        rcases List.mem_append.mp hc with hc | hc
        · exact hfacts c (Or.inl hc)
        · rcases List.mem_append.mp hc with hc | hc
          · exact hfacts c (Or.inr (Or.inl hc))
          · exact hfacts c (Or.inr (Or.inr hc))
      exact Or.inl ⟨List.mem_map.mpr ⟨c, hmemsub c hc, rfl⟩, h1.1, h1.2⟩
    · simp only [List.map_cons, List.map_nil, List.mem_singleton] at hx
      exact Or.inr hx
  · intro h2
    have hl1 : l1 = [] := List.length_eq_zero.mp (by omega)
    have hl2 : l2 = [] := List.length_eq_zero.mp (by omega)
    have hl3 : l3 = [] := List.length_eq_zero.mp (by omega)
    subst hl1 hl2 hl3
    simp only [List.nil_append] at hs
    rw [hma, hmb, hs]
    simp

theorem flatten_singletons : ∀ l : List ℕ, (l.map (fun i => [i])).flatten = l
  | [] => rfl
  | x :: rest => by
    simp only [List.map_cons, List.flatten_cons, List.singleton_append]
    rw [flatten_singletons rest]

theorem inv_init (n : ℕ) : Inv (initState n) n n := by
  constructor
  · have : (initState n).map Cluster.cid = List.range n := by
      simp [initState, List.map_map, Function.comp_def]
    rw [this]
    exact List.nodup_range n
  · intro c hc
    simp only [initState, List.mem_map, List.mem_range] at hc
    obtain ⟨i, hi, rfl⟩ := hc
    exact hi
  · intro c hc
    simp only [initState, List.mem_map, List.mem_range] at hc
    obtain ⟨i, hi, rfl⟩ := hc
    simp
  · have : (initState n).map Cluster.members = (List.range n).map (fun i => [i]) := by
      simp [initState, List.map_map, Function.comp_def]
    rw [this, flatten_singletons]

theorem initState_length (n : ℕ) : (initState n).length = n := by
  simp [initState]

theorem sizeOfId_append_stable {n i : ℕ} {pre : List (MergeRec α)}
    (rest : List (MergeRec α)) (h : i < n + pre.length) :
    sizeOfId n (pre ++ rest) i = sizeOfId n pre i := by
  unfold sizeOfId
  by_cases hi : i < n
  · simp [hi]
  · have hlt : i - n < pre.length := by omega
    rw [List.getElem?_append_left hlt]

theorem sizeOfId_append_self {n : ℕ} {pre : List (MergeRec α)} {r : MergeRec α}
    (rest : List (MergeRec α)) :
    sizeOfId n (pre ++ r :: rest) (n + pre.length) = r.size := by
  unfold sizeOfId
  rw [if_neg (by omega), List.getElem?_append_right (by omega)]
  simp

theorem runSteps_spec {cd : Cluster → Cluster → α} :
    ∀ (fuel : ℕ) (s : List Cluster) (nid n : ℕ), Inv s nid n → fuel + 1 ≤ s.length →
      (runSteps cd fuel s nid).1.length = fuel ∧
      (runSteps cd fuel s nid).2.length + fuel = s.length ∧
      Inv (runSteps cd fuel s nid).2 (nid + fuel) n ∧
      (operands (runSteps cd fuel s nid).1).Nodup ∧
      (∀ x ∈ operands (runSteps cd fuel s nid).1, x ∈ s.map Cluster.cid ∨ nid ≤ x) ∧
      (∀ m, m ≤ fuel →
        replay ((runSteps cd fuel s nid).1.take m) s nid = (runSteps cd m s nid).2) ∧
      (∀ pre : List (MergeRec α), nid = n + pre.length →
        (∀ c ∈ s, c.members.length = sizeOfId n pre c.cid) →
        ∀ j (hj : j < (runSteps cd fuel s nid).1.length),
          ((runSteps cd fuel s nid).1.get ⟨j, hj⟩).size =
            sizeOfId n (pre ++ (runSteps cd fuel s nid).1)
              ((runSteps cd fuel s nid).1.get ⟨j, hj⟩).left +
            sizeOfId n (pre ++ (runSteps cd fuel s nid).1)
              ((runSteps cd fuel s nid).1.get ⟨j, hj⟩).right) ∧
      (1 ≤ fuel → fuel + 1 = s.length →
        ∃ r, (runSteps cd fuel s nid).1.getLast? = some r ∧ r.size = n) := by
  intro fuel
  induction fuel with
  | zero =>
    intro s nid n hinv _
    refine ⟨rfl, rfl, by simpa using hinv, by simp [operands, runSteps],
      by simp [operands, runSteps], ?_, ?_, by omega⟩
    · intro m hm
      have hm0 : m = 0 := by omega
      subst hm0
      rfl
    · intro pre _ _ j hj
      simp [runSteps] at hj
  | succ fuel ih =>
    intro s nid n hinv hlen
    obtain ⟨rec, s2, hstep, hs2eq, hs2len, hinv2, hleft, hright, hlr, htrans, hsize,
      ⟨a, hamem, haid, hma⟩, ⟨b, hbmem, hbid, hmb⟩, hroot⟩ :=
      @step_spec α _ cd s nid n hinv (by omega)
    have hrun : runSteps cd (fuel + 1) s nid =
        (rec :: (runSteps cd fuel s2 (nid + 1)).1, (runSteps cd fuel s2 (nid + 1)).2) := by
      simp [runSteps, hstep]
    have hrun1 : (runSteps cd (fuel + 1) s nid).1 =
        rec :: (runSteps cd fuel s2 (nid + 1)).1 := by rw [hrun]
    have hrun2 : (runSteps cd (fuel + 1) s nid).2 =
        (runSteps cd fuel s2 (nid + 1)).2 := by rw [hrun]
    have hlen2 : fuel + 1 ≤ s2.length := by omega
    obtain ⟨ihlen, ihslen, ihinv, ihnodup, ihops, ihtake, ihsizes, ihlast⟩ :=
      ih s2 (nid + 1) n hinv2 hlen2
    have hleftlt : rec.left < nid := by
      obtain ⟨c, hc, hcid⟩ := List.mem_map.mp hleft
      exact hcid ▸ hinv.lt c hc
    have hrightlt : rec.right < nid := by
      obtain ⟨c, hc, hcid⟩ := List.mem_map.mp hright
      exact hcid ▸ hinv.lt c hc
    have hopsfresh : ∀ x ∈ operands (runSteps cd fuel s2 (nid + 1)).1,
        x ≠ rec.left ∧ x ≠ rec.right := by
      intro x hx
      rcases ihops x hx with hx2 | hx2
      · rcases htrans x hx2 with ⟨_, hne1, hne2⟩ | rfl
        · exact ⟨hne1, hne2⟩
        · constructor <;> omega
      · constructor <;> omega
    have hshape : operands (rec :: (runSteps cd fuel s2 (nid + 1)).1) =
        rec.left :: rec.right :: operands (runSteps cd fuel s2 (nid + 1)).1 := rfl
    refine ⟨?_, ?_, ?_, ?_, ?_, ?_, ?_, ?_⟩
    · rw [hrun1]
      simpa using ihlen
    · rw [hrun2]
      omega
    · rw [hrun2]
      have : nid + (fuel + 1) = nid + 1 + fuel := by omega
      rw [this]
      exact ihinv
    · rw [hrun1, hshape, List.nodup_cons, List.nodup_cons]
      refine ⟨?_, ?_, ihnodup⟩
      · intro h
        rcases List.mem_cons.mp h with h | h
        · exact hlr h
        · exact (hopsfresh _ h).1 rfl
      · intro h
        exact (hopsfresh _ h).2 rfl
    · rw [hrun1]
      intro x hx
      rw [hshape] at hx
      rcases List.mem_cons.mp hx with rfl | hx
      · exact Or.inl hleft
      rcases List.mem_cons.mp hx with rfl | hx
      · exact Or.inl hright
      rcases ihops x hx with hx2 | hx2
      · rcases htrans x hx2 with ⟨hmem2, _, _⟩ | rfl
        · exact Or.inl hmem2
        · exact Or.inr (by omega)
      · exact Or.inr (by omega)
    · intro m hm
      match m, hm with
      | 0, _ => rfl
      | m' + 1, hm =>
        rw [hrun1, List.take_succ_cons]
        have hm2 : runSteps cd (m' + 1) s nid =
            (rec :: (runSteps cd m' s2 (nid + 1)).1, (runSteps cd m' s2 (nid + 1)).2) := by
          simp [runSteps, hstep]
        have hm2b : (runSteps cd (m' + 1) s nid).2 = (runSteps cd m' s2 (nid + 1)).2 := by
          rw [hm2]
        rw [hm2b]
        show replay (List.take m' (runSteps cd fuel s2 (nid + 1)).1)
          (applyMerge s rec.left rec.right nid) (nid + 1) = _
        rw [← hs2eq]
        exact ihtake m' (by omega)
    · intro pre hnid hpre
      have hsizel : (membersOf s rec.left).length = sizeOfId n pre rec.left := by
        rw [hma, ← haid]
        exact hpre a hamem
      have hsizer : (membersOf s rec.right).length = sizeOfId n pre rec.right := by
        rw [hmb, ← hbid]
        exact hpre b hbmem
      have hpre2 : ∀ c ∈ s2, c.members.length = sizeOfId n (pre ++ [rec]) c.cid := by
        intro c hc
        rw [hs2eq] at hc
        unfold applyMerge at hc
        rcases List.mem_append.mp hc with hc | hc
        · have hcs : c ∈ s := (List.mem_filter.mp hc).1
          have hlt : c.cid < n + pre.length := hnid ▸ hinv.lt c hcs
          rw [sizeOfId_append_stable [rec] hlt]
          exact hpre c hcs
        · simp only [List.mem_singleton] at hc
          subst hc
          show (membersOf s rec.left ++ membersOf s rec.right).length =
            sizeOfId n (pre ++ [rec]) nid
          subst hnid
          rw [@sizeOfId_append_self α _ n pre rec [], List.length_append]
          exact hsize.symm
      rw [hrun1]
      intro j hj
      match j, hj with
      | 0, hj =>
        show rec.size =
          sizeOfId n (pre ++ rec :: (runSteps cd fuel s2 (nid + 1)).1) rec.left +
            sizeOfId n (pre ++ rec :: (runSteps cd fuel s2 (nid + 1)).1) rec.right
        rw [sizeOfId_append_stable _ (by omega), sizeOfId_append_stable _ (by omega),
          ← hsizel, ← hsizer]
        exact hsize
      | j' + 1, hj =>
        have hj' : j' < (runSteps cd fuel s2 (nid + 1)).1.length := by
          simpa using hj
        show ((runSteps cd fuel s2 (nid + 1)).1.get ⟨j', hj'⟩).size =
          sizeOfId n (pre ++ rec :: (runSteps cd fuel s2 (nid + 1)).1)
            ((runSteps cd fuel s2 (nid + 1)).1.get ⟨j', hj'⟩).left +
          sizeOfId n (pre ++ rec :: (runSteps cd fuel s2 (nid + 1)).1)
            ((runSteps cd fuel s2 (nid + 1)).1.get ⟨j', hj'⟩).right
        have hres := ihsizes (pre ++ [rec]) (by simp; omega) hpre2 j' hj'
        simpa [List.append_assoc] using hres
    · intro hf hslen
      match fuel, ihlen, ihlast with
      | 0, ihlen, _ =>
        have hrecs : (runSteps cd (0 + 1) s nid).1 = [rec] := by
          rw [hrun1]
          rfl
        rw [hrecs]
        exact ⟨rec, rfl, by rw [hroot (by omega),
          List.Perm.length_eq hinv.perm, List.length_range]⟩
      | fuel' + 1, ihlen, ihlast =>
        obtain ⟨r, hr, hrs⟩ := ihlast (by omega) (by omega)
        refine ⟨r, ?_, hrs⟩
        rw [hrun1]
        match hrecs : (runSteps cd (fuel' + 1) s2 (nid + 1)).1, ihlen with
        | r0 :: rest, _ =>
          rw [List.getLast?_cons_cons]
          rw [hrecs] at hr
          exact hr

theorem labelLoop_card : ∀ (l : List ℕ) (seen : List (ℕ × ℕ)),
    (seen.map Prod.fst).Nodup → (seen.map Prod.snd).Nodup →
    (∀ p ∈ seen, p.2 ≤ seen.length) →
    ((labelLoop l seen).toFinset ∪ (seen.map Prod.snd).toFinset).card =
      (l.toFinset ∪ (seen.map Prod.fst).toFinset).card := by
  intro l
  induction l with
  | nil =>
    intro seen hk hv _
    simp only [labelLoop, List.toFinset_nil, Finset.empty_union]
    rw [List.toFinset_card_of_nodup hk, List.toFinset_card_of_nodup hv,
      List.length_map, List.length_map]
  | cons c rest ih =>
    intro seen hk hv hb
    unfold labelLoop
    cases hfind : seen.find? (fun p => p.1 == c) with
    | some p =>
      have hpmem := List.mem_of_find?_eq_some hfind
      have hpc : p.1 = c := by simpa using List.find?_some hfind
      have hvmem : p.2 ∈ (seen.map Prod.snd).toFinset :=
        List.mem_toFinset.mpr (List.mem_map.mpr ⟨p, hpmem, rfl⟩)
      have hkmem : c ∈ (seen.map Prod.fst).toFinset :=
        List.mem_toFinset.mpr (List.mem_map.mpr ⟨p, hpmem, hpc⟩)
      rw [List.toFinset_cons, Finset.insert_union,
        Finset.insert_eq_self.mpr (Finset.mem_union_right _ hvmem),
        List.toFinset_cons, Finset.insert_union,
        Finset.insert_eq_self.mpr (Finset.mem_union_right _ hkmem)]
      exact ih seen hk hv hb
    | none =>
      have hcnotin : ∀ p ∈ seen, p.1 ≠ c := by
        intro p hp
        have := List.find?_eq_none.mp hfind p hp
        simpa using this
      have hk2 : ((seen ++ [(c, seen.length + 1)]).map Prod.fst).Nodup := by
        rw [List.map_append, List.nodup_append]
        refine ⟨hk, by simp, ?_⟩
        intro x hx
        obtain ⟨p, hp, rfl⟩ := List.mem_map.mp hx
        simpa using (hcnotin p hp)
      have hv2 : ((seen ++ [(c, seen.length + 1)]).map Prod.snd).Nodup := by
        rw [List.map_append, List.nodup_append]
        refine ⟨hv, by simp, ?_⟩
        intro x hx
        obtain ⟨p, hp, rfl⟩ := List.mem_map.mp hx
        have := hb p hp
        simp only [List.map_cons, List.map_nil, List.mem_singleton]
        omega
      have hb2 : ∀ p ∈ seen ++ [(c, seen.length + 1)],
          p.2 ≤ (seen ++ [(c, seen.length + 1)]).length := by
        intro p hp
        rcases List.mem_append.mp hp with hp | hp
        · have := hb p hp
          simp only [List.length_append, List.length_cons, List.length_nil]
          omega
        · simp only [List.mem_singleton] at hp
          subst hp
          simp
      have hres := ih (seen ++ [(c, seen.length + 1)]) hk2 hv2 hb2
      rw [List.map_append, List.map_append, List.toFinset_append, List.toFinset_append]
        at hres
      simp only [List.map_cons, List.map_nil, List.toFinset_cons, List.toFinset_nil,
        insert_emptyc_eq] at hres
      rw [List.toFinset_cons, Finset.insert_union]
      rw [List.toFinset_cons, Finset.insert_union]
      have hset1 : insert (seen.length + 1)
          ((labelLoop rest (seen ++ [(c, seen.length + 1)])).toFinset ∪
            (seen.map Prod.snd).toFinset) =
          (labelLoop rest (seen ++ [(c, seen.length + 1)])).toFinset ∪
            ((seen.map Prod.snd).toFinset ∪ {seen.length + 1}) := by
        ext x
        simp only [Finset.mem_insert, Finset.mem_union, Finset.mem_singleton]
        tauto
      have hset2 : rest.toFinset ∪ ((seen.map Prod.fst).toFinset ∪ {c}) =
          insert c (rest.toFinset ∪ (seen.map Prod.fst).toFinset) := by
        ext x
        simp only [Finset.mem_insert, Finset.mem_union, Finset.mem_singleton]
        tauto
      rw [hset1, hres, hset2]

theorem assignLabels_card (l : List ℕ) :
    (assignLabels l).toFinset.card = l.toFinset.card := by
  have hres := labelLoop_card l [] (by simp) (by simp) (by simp)
  simpa [assignLabels] using hres

theorem clusterOfObs_cons_pos {d : Cluster} {rest : List Cluster} {j : ℕ}
    (h : j ∈ d.members) : clusterOfObs (d :: rest) j = d.cid := by
  unfold clusterOfObs
  rw [List.find?_cons_of_pos _ (by simpa using h)]

theorem clusterOfObs_cons_neg {d : Cluster} {rest : List Cluster} {j : ℕ}
    (h : ¬ j ∈ d.members) : clusterOfObs (d :: rest) j = clusterOfObs rest j := by
  unfold clusterOfObs
  rw [List.find?_cons_of_neg _ (by simpa using h)]

theorem clusterOfObs_eq_of_mem : ∀ {s : List Cluster} {c : Cluster} {j : ℕ},
    ((s.map Cluster.members).flatten).Nodup → c ∈ s → j ∈ c.members →
    clusterOfObs s j = c.cid := by
  intro s
  induction s with
  | nil =>
    intro c j _ hc _
    simp at hc
  | cons d rest ih =>
    intro c j hnd hc hj
    have hnd2 : (d.members ++ ((rest.map Cluster.members).flatten)).Nodup := by
      simpa using hnd
    by_cases hdj : j ∈ d.members
    · rw [clusterOfObs_cons_pos hdj]
      rcases List.mem_cons.mp hc with rfl | hc
      · rfl
      · exfalso
        have hjf : j ∈ (rest.map Cluster.members).flatten :=
          List.mem_flatten.mpr ⟨c.members, List.mem_map.mpr ⟨c, hc, rfl⟩, hj⟩
        exact (List.nodup_append.mp hnd2).2.2 hdj hjf
    · rw [clusterOfObs_cons_neg hdj]
      rcases List.mem_cons.mp hc with rfl | hc
      · exact absurd hj hdj
      · exact ih (List.nodup_append.mp hnd2).2.1 hc hj

theorem clusterOfObs_mem {s : List Cluster} {nid n : ℕ} (hinv : Inv s nid n)
    {j : ℕ} (hj : j < n) : clusterOfObs s j ∈ s.map Cluster.cid := by
  have hjf : j ∈ (s.map Cluster.members).flatten :=
    (hinv.perm.mem_iff).mpr (List.mem_range.mpr hj)
  obtain ⟨ms, hms, hjm⟩ := List.mem_flatten.mp hjf
  obtain ⟨c, hc, rfl⟩ := List.mem_map.mp hms
  have hflatnd : ((s.map Cluster.members).flatten).Nodup :=
    (hinv.perm.nodup_iff).mpr (List.nodup_range n)
  rw [clusterOfObs_eq_of_mem hflatnd hc hjm]
  exact List.mem_map.mpr ⟨c, hc, rfl⟩

theorem range_map_clusterOfObs {s : List Cluster} {nid n : ℕ} (hinv : Inv s nid n) :
    ((List.range n).map (clusterOfObs s)).toFinset = (s.map Cluster.cid).toFinset := by
  ext x
  simp only [List.mem_toFinset, List.mem_map, List.mem_range]
  constructor
  · rintro ⟨j, hj, rfl⟩
    exact List.mem_map.mp (clusterOfObs_mem hinv hj)
  · rintro ⟨c, hc, rfl⟩
    obtain ⟨j, hj⟩ : ∃ j, j ∈ c.members := by
      cases hm : c.members with
      | nil => exact absurd hm (hinv.nonempty c hc)
      | cons y t => exact ⟨y, by simp [hm]⟩
    have hjf : j ∈ (s.map Cluster.members).flatten :=
      List.mem_flatten.mpr ⟨c.members, List.mem_map.mpr ⟨c, hc, rfl⟩, hj⟩
    have hjn : j < n := List.mem_range.mp ((hinv.perm.mem_iff).mp hjf)
    have hflatnd : ((s.map Cluster.members).flatten).Nodup :=
      (hinv.perm.nodup_iff).mpr (List.nodup_range n)
    exact ⟨j, hjn, clusterOfObs_eq_of_mem hflatnd hc hj⟩

theorem state_labels_card {s : List Cluster} {nid n : ℕ} (hinv : Inv s nid n) :
    (assignLabels ((List.range n).map (clusterOfObs s))).toFinset.card = s.length := by
  rw [assignLabels_card, range_map_clusterOfObs hinv,
    List.toFinset_card_of_nodup hinv.nodup, List.length_map]

theorem runMetrics_ok (score : LinkMethod → DistMetric → α) (m : LinkMethod) :
    ∀ (mets : List DistMetric) (acc : List (Row α)),
      runMetrics (fun m2 met => .ok (score m2 met)) m mets acc =
        .ok (acc ++ mets.filterMap (fun met =>
          if skipPair m met then none else some (m, met, score m met))) := by
  intro mets
  induction mets with
  | nil => intro acc; simp [runMetrics]
  | cons met rest ih =>
    intro acc
    by_cases hskip : skipPair m met
    · rw [runMetrics, if_pos hskip, ih, List.filterMap_cons, if_pos hskip]
    · rw [runMetrics, if_neg hskip]
      show runMetrics (fun m2 met => Except.ok (score m2 met)) m rest
        (acc ++ [(m, met, score m met)]) = _
      rw [ih]
      simp [List.filterMap_cons, hskip, List.append_assoc]

theorem runMethods_ok (score : LinkMethod → DistMetric → α) :
    ∀ (ms : List LinkMethod) (acc : List (Row α)),
      runMethods (fun m met => .ok (score m met)) ms acc =
        .ok (acc ++ ms.flatMap (fun m =>
          distance_metrics.filterMap (fun met =>
            if skipPair m met then none else some (m, met, score m met)))) := by
  intro ms
  induction ms with
  | nil => intro acc; simp [runMethods]
  | cons m rest ih =>
    intro acc
    rw [runMethods, runMetrics_ok]
    simp only
    rw [ih, List.flatMap_cons, List.append_assoc]

theorem runGrid_ok (score : LinkMethod → DistMetric → α) :
    runGrid (fun m met => .ok (score m met)) = .ok (gridRows score) := by
  rw [runGrid, runMethods_ok]
  simp [gridRows]

theorem runMetrics_ok_inv {eval : LinkMethod → DistMetric → Except Err α}
    {m : LinkMethod} :
    ∀ {mets : List DistMetric} {acc out : List (Row α)},
      runMetrics eval m mets acc = .ok out →
      ∀ r ∈ out, r ∈ acc ∨ (r.1 = m ∧ eval r.1 r.2.1 = .ok r.2.2) := by
  intro mets
  induction mets with
  | nil =>
    intro acc out h r hr
    rw [runMetrics] at h
    injection h with h
    exact Or.inl (h ▸ hr)
  | cons met rest ih =>
    intro acc out h r hr
    rw [runMetrics] at h
    by_cases hskip : skipPair m met
    · rw [if_pos hskip] at h
      exact ih h r hr
    · rw [if_neg hskip] at h
      cases heval : eval m met with
      | error e => rw [heval] at h; exact absurd h (by simp)
      | ok q =>
        rw [heval] at h
        rcases ih h r hr with hra | hrb
        · rcases List.mem_append.mp hra with hra | hra
          · exact Or.inl hra
          · simp only [List.mem_singleton] at hra
            subst hra
            exact Or.inr ⟨rfl, heval⟩
        · exact Or.inr hrb

theorem runMethods_ok_inv {eval : LinkMethod → DistMetric → Except Err α} :
    ∀ {ms : List LinkMethod} {acc out : List (Row α)},
      runMethods eval ms acc = .ok out →
      ∀ r ∈ out, r ∈ acc ∨ eval r.1 r.2.1 = .ok r.2.2 := by
  intro ms
  induction ms with
  | nil =>
    intro acc out h r hr
    rw [runMethods] at h
    injection h with h
    exact Or.inl (h ▸ hr)
  | cons m rest ih =>
    intro acc out h r hr
    rw [runMethods] at h
    cases hmet : runMetrics eval m distance_metrics acc with
    | error e => rw [hmet] at h; exact absurd h (by simp)
    | ok acc2 =>
      rw [hmet] at h
      rcases ih h r hr with hra | hrb
      · rcases runMetrics_ok_inv hmet r hra with hrc | hrc
        · exact Or.inl hrc
        · exact Or.inr hrc.2
      · exact Or.inr hrb

theorem runGrid_ok_inv {eval : LinkMethod → DistMetric → Except Err α}
    {out : List (Row α)} (h : runGrid eval = .ok out) :
    ∀ r ∈ out, eval r.1 r.2.1 = .ok r.2.2 := by
  intro r hr
  rcases runMethods_ok_inv h r hr with hra | hrb
  · simp at hra
  · exact hrb

theorem runMetrics_error {eval : LinkMethod → DistMetric → Except Err α}
    {m : LinkMethod} :
    ∀ {mets : List DistMetric} (acc : List (Row α)) {met : DistMetric} {e : Err},
      met ∈ mets → ¬ skipPair m met → eval m met = .error e →
      ∃ e2, runMetrics eval m mets acc = .error e2 := by
  intro mets
  induction mets with
  | nil =>
    intro acc met e hmem
    simp at hmem
  | cons met0 rest ih =>
    intro acc met e hmem hskip herr
    rw [runMetrics]
    rcases List.mem_cons.mp hmem with rfl | hmem
    · rw [if_neg hskip, herr]
      exact ⟨e, rfl⟩
    · by_cases hskip0 : skipPair m met0
      · rw [if_pos hskip0]
        exact ih acc hmem hskip herr
      · rw [if_neg hskip0]
        cases heval : eval m met0 with
        | error e0 => exact ⟨e0, rfl⟩
        | ok q => exact ih _ hmem hskip herr

theorem runMethods_error {eval : LinkMethod → DistMetric → Except Err α} :
    ∀ {ms : List LinkMethod} (acc : List (Row α)) {m : LinkMethod}
      {met : DistMetric} {e : Err},
      m ∈ ms → met ∈ distance_metrics → ¬ skipPair m met → eval m met = .error e →
      ∃ e2, runMethods eval ms acc = .error e2 := by
  intro ms
  induction ms with
  | nil =>
    intro acc m met e hmem
    simp at hmem
  | cons m0 rest ih =>
    intro acc m met e hmem hmet hskip herr
    rw [runMethods]
    rcases List.mem_cons.mp hmem with rfl | hmem
    · obtain ⟨e2, he2⟩ := runMetrics_error acc hmet hskip herr
      rw [he2]
      exact ⟨e2, rfl⟩
    · cases hrm : runMetrics eval m0 distance_metrics acc with
      | error e0 => exact ⟨e0, rfl⟩
      | ok acc2 => exact ih acc2 hmem hmet hskip herr

theorem runGrid_error {eval : LinkMethod → DistMetric → Except Err α}
    {m : LinkMethod} {met : DistMetric} {e : Err}
    (hm : m ∈ linkage_methods) (hmet : met ∈ distance_metrics)
    (hskip : ¬ skipPair m met) (herr : eval m met = .error e) :
    ∃ e2, runGrid eval = .error e2 :=
  runMethods_error [] hm hmet hskip herr

theorem evalConfig_ok_inv {dOf : DistMetric → ℕ → ℕ → α} {X : ℕ → List α}
    {n k : ℕ} {m : LinkMethod} {met : DistMetric} {q : α}
    (h : evalConfig dOf X n k m met = .ok q) :
    ∃ labels, fclusterByCount (linkageBuilder m (dOf met) X n) n k = .ok labels ∧
      silhouetteScore (dOf met) labels = .ok q := by
  unfold evalConfig at h
  cases hfc : fclusterByCount (linkageBuilder m (dOf met) X n) n k with
  | error e => rw [hfc] at h; exact absurd h (by simp)
  | ok labels =>
    rw [hfc] at h
    exact ⟨labels, rfl, h⟩

theorem normSq_cons (a : ℚ) (t : List ℚ) :
    normSq (a :: t) = a * a + normSq t := by
  simp [normSq, dotL]

theorem normSq_nonneg (x : List ℚ) : 0 ≤ normSq x := by
  induction x with
  | nil => simp [normSq, dotL]
  | cons a t ih =>
    rw [normSq_cons]
    exact add_nonneg (mul_self_nonneg a) ih

theorem normSq_eq_zero_iff (x : List ℚ) : normSq x = 0 ↔ ∀ a ∈ x, a = 0 := by
  induction x with
  | nil => simp [normSq, dotL]
  | cons a t ih =>
    rw [normSq_cons]
    constructor
    · intro h
      obtain ⟨h1, h2⟩ :=
        (add_eq_zero_iff_of_nonneg (mul_self_nonneg a) (normSq_nonneg t)).mp h
      intro b hb
      rcases List.mem_cons.mp hb with rfl | hb
      · exact mul_self_eq_zero.mp h1
      · exact ih.mp h2 b hb
    · intro h
      rw [h a (by simp), ih.mpr (fun b hb => h b (by simp [hb]))]
      simp

theorem evalConfig_two (m : LinkMethod) (met : DistMetric) :
    evalConfig (fun _ => dTwo) xTwo 2 2 m met = .ok 1 := by
  have h1 : fclusterByCount (linkageBuilder m dTwo xTwo 2) 2 2 = .ok [1, 2] := by
    cases m <;> decide
  have h2 : silhouetteScore dTwo [1, 2] = .ok 1 := by
    norm_num [silhouetteScore, meanL, silPoint, silA, silB, minList, List.dedup,
      List.range_succ, dTwo]
  unfold evalConfig
  rw [h1]
  exact h2

theorem runGrid_two :
    runGrid (evalConfig (fun _ => dTwo) xTwo 2 2) =
      .ok (gridRows (fun _ _ => (1 : ℚ))) := by
  have heq : evalConfig (fun _ => dTwo) xTwo 2 2 =
      (fun m met => .ok ((fun _ _ => (1 : ℚ)) m met)) := by
    funext m met
    exact evalConfig_two m met
  rw [heq, runGrid_ok]

end BasicLemmas

section Claims

/-- C1: for every base distance function and feature matrix over n
observations and every linkage criterion in {single, complete, average,
ward}, LinkageBuilder produces exactly n-1 merge records, no cluster id is
used as a merge operand more than once, the size recorded for each merged
cluster equals the sum of its two children's registered sizes (1 for
singletons, the recorded size for merged clusters), and the final (root)
cluster has size n. -/
theorem claim_c1_linkage_invariants {α : Type} [LinearOrderedField α]
    (meth : LinkMethod) (d : ℕ → ℕ → α) (X : ℕ → List α) (n : ℕ) :
    (linkageBuilder meth d X n).length = n - 1 ∧
    (operands (linkageBuilder meth d X n)).Nodup ∧
    (∀ j (hj : j < (linkageBuilder meth d X n).length),
      ((linkageBuilder meth d X n).get ⟨j, hj⟩).size =
        sizeOfId n (linkageBuilder meth d X n)
          ((linkageBuilder meth d X n).get ⟨j, hj⟩).left +
        sizeOfId n (linkageBuilder meth d X n)
          ((linkageBuilder meth d X n).get ⟨j, hj⟩).right) ∧
    (2 ≤ n → ∃ r, (linkageBuilder meth d X n).getLast? = some r ∧ r.size = n) := by
  unfold linkageBuilder buildLinkage
  rcases Nat.eq_zero_or_pos n with rfl | hn
  · refine ⟨rfl, by simp [operands, runSteps], ?_, by omega⟩
    intro j hj
    simp [runSteps] at hj
  · have hinv := inv_init n
    have hlen : (n - 1) + 1 ≤ (initState n).length := by
      rw [initState_length]
      omega
    obtain ⟨h1, h2, h3, h4, h5, h6, h7, h8⟩ :=
      @runSteps_spec α _ (clusterDist meth d X) (n - 1) (initState n) n n hinv hlen
    refine ⟨h1, h4, ?_, ?_⟩
    · have hpre : ∀ c ∈ initState n,
          c.members.length = sizeOfId n ([] : List (MergeRec α)) c.cid := by
        intro c hc
        simp only [initState, List.mem_map, List.mem_range] at hc
        obtain ⟨i, hi, rfl⟩ := hc
        simp [sizeOfId, hi]
      have hres := h7 [] (by simp) hpre
      simpa using hres
    · intro hn2
      have hlast : (n - 1) + 1 = (initState n).length := by
        rw [initState_length]
        exact Nat.succ_pred_eq_of_pos hn
      exact h8 (Nat.le_pred_of_lt hn2) hlast

/-- Witness for C1 at the 6-point dataset with single linkage. -/
theorem claim_c1_witness :
    recsE2E.length = 5 ∧ (operands recsE2E).Nodup ∧
      ∃ r, recsE2E.getLast? = some r ∧ r.size = 6 := by
  obtain ⟨h1, h2, _, h4⟩ :=
    claim_c1_linkage_invariants LinkMethod.single dE2E (fun _ => []) 6
  exact ⟨h1, h2, h4 (by decide)⟩

/-- C2: for every merge tree produced by LinkageBuilder over n observations
and every cluster count k, extraction by count yields a label assignment with
exactly k distinct labels whenever 1 ≤ k ≤ n, and fails with
InvalidClusterCountError whenever k < 1 or k > n. -/
theorem claim_c2_extract_by_count {α : Type} [LinearOrderedField α]
    (meth : LinkMethod) (d : ℕ → ℕ → α) (X : ℕ → List α) (n k : ℕ) :
    ((k < 1 ∨ n < k) →
      fclusterByCount (linkageBuilder meth d X n) n k =
        .error .invalidClusterCount) ∧
    (1 ≤ k → k ≤ n →
      ∃ labels, fclusterByCount (linkageBuilder meth d X n) n k = .ok labels ∧
        labels.toFinset.card = k) := by
  constructor
  · intro hbad
    rw [fclusterByCount, if_pos hbad]
  · intro hk1 hkn
    have hok : ¬ (k < 1 ∨ n < k) := by omega
    rw [fclusterByCount, if_neg hok]
    have hinv := inv_init n
    have hn : 1 ≤ n := by omega
    have hlen : (n - 1) + 1 ≤ (initState n).length := by
      rw [initState_length]
      omega
    obtain ⟨h1, h2, h3, h4, h5, h6, h7, h8⟩ :=
      @runSteps_spec α _ (clusterDist meth d X) (n - 1) (initState n) n n hinv hlen
    have hm : n - k ≤ n - 1 := by omega
    have hlen2 : (n - k) + 1 ≤ (initState n).length := by
      rw [initState_length]
      omega
    obtain ⟨g1, g2, g3, g4, g5, g6, g7, g8⟩ :=
      @runSteps_spec α _ (clusterDist meth d X) (n - k) (initState n) n n hinv hlen2
    have hcard : (assignLabels ((List.range n).map (clusterOfObs
        (replay ((linkageBuilder meth d X n).take (n - k)) (initState n) n)))).toFinset.card
        = k := by
      unfold linkageBuilder buildLinkage
      rw [h6 (n - k) hm, state_labels_card g3]
      rw [initState_length] at g2
      exact (Nat.eq_sub_of_add_eq g2).trans (Nat.sub_sub_self hkn)
    exact ⟨_, rfl, hcard⟩

/-- Witness for C2: k = 0 fails, k = 2 yields two distinct labels on the
6-point dataset. -/
theorem claim_c2_witness :
    fclusterByCount recsE2E 6 0 = .error .invalidClusterCount ∧
      ∃ labels, fclusterByCount recsE2E 6 2 = .ok labels ∧
        labels.toFinset.card = 2 :=
  ⟨(claim_c2_extract_by_count LinkMethod.single dE2E (fun _ => []) 6 0).1
      (by decide),
    (claim_c2_extract_by_count LinkMethod.single dE2E (fun _ => []) 6 2).2
      (by decide) (by decide)⟩

/-- C4: LinkageBuilder is deterministic: two runs on the same base distances,
feature matrix, observation count and criterion yield the same merge tree
(the embedding is a pure function of its inputs, so equal inputs give
syntactically identical merge records). -/
theorem claim_c4_determinism {α : Type} [LinearOrderedField α]
    (meth1 meth2 : LinkMethod) (d1 d2 : ℕ → ℕ → α) (X1 X2 : ℕ → List α)
    (n1 n2 : ℕ) (hmeth : meth1 = meth2) (hd : d1 = d2) (hX : X1 = X2)
    (hn : n1 = n2) :
    linkageBuilder meth1 d1 X1 n1 = linkageBuilder meth2 d2 X2 n2 := by
  subst hmeth hd hX hn
  rfl

/-- Witness for C4 at the 6-point dataset. -/
theorem claim_c4_witness :
    linkageBuilder LinkMethod.single dE2E (fun _ => []) 6 =
      linkageBuilder LinkMethod.single dE2E (fun _ => []) 6 :=
  claim_c4_determinism LinkMethod.single LinkMethod.single dE2E dE2E
    (fun _ => []) (fun _ => []) 6 6 rfl rfl rfl rfl

/-- C5: on the 6-point one-dimensional dataset 0,1,2,10,11,12, single linkage
records the four intra-group merges at distance 1 before the single
inter-group merge at distance 8, after four merges the two live clusters are
exactly the groups 0,1,2 and 3,4,5 (observation indices), and extraction with
k = 2 labels observations 0,1,2 with one label and 3,4,5 with the other. -/
theorem claim_c5_end_to_end :
    recsE2E.map MergeRec.dist = [1, 1, 1, 1, 8] ∧
    (replay (recsE2E.take 4) (initState 6) 6).map Cluster.members =
      [[2, 0, 1], [5, 3, 4]] ∧
    fclusterByCount recsE2E 6 2 = .ok [1, 1, 1, 2, 2, 2] :=
  ⟨by decide, by decide, by decide⟩

/-- C3: with every evaluation succeeding, the grid loop returns normally; no
row is produced for ward with a non-Euclidean metric, no error is raised for
those pairs (the run is an `ok`), and every non-skipped pair of the grid
contributes its row. -/
theorem claim_c3_ward_skip {α : Type} [LinearOrderedField α]
    (score : LinkMethod → DistMetric → α) :
    runGrid (fun m met => .ok (score m met)) = .ok (gridRows score) ∧
    (∀ met q, met ≠ DistMetric.euclidean →
      (LinkMethod.ward, met, q) ∉ gridRows score) ∧
    (∀ m met, ¬ skipPair m met → (m, met, score m met) ∈ gridRows score) := by
  refine ⟨runGrid_ok score, ?_, ?_⟩
  · intro met q hmet hmem
    cases met with
    | euclidean => exact hmet rfl
    | cityblock =>
      simp [gridRows, linkage_methods, distance_metrics, skipPair] at hmem
    | cosine =>
      simp [gridRows, linkage_methods, distance_metrics, skipPair] at hmem
  · intro m met hskip
    cases m <;> cases met <;>
      simp_all [gridRows, linkage_methods, distance_metrics, skipPair]

/-- Witness for C3 with the constant-zero score. -/
theorem claim_c3_witness :
    runGrid (fun _ _ => Except.ok (0 : ℚ)) =
      .ok (gridRows (fun _ _ => (0 : ℚ))) ∧
    (LinkMethod.ward, DistMetric.cosine, (0 : ℚ)) ∉ gridRows (fun _ _ => (0 : ℚ)) ∧
    (LinkMethod.single, DistMetric.cosine, (0 : ℚ)) ∈ gridRows (fun _ _ => (0 : ℚ)) := by
  obtain ⟨h1, h2, h3⟩ := claim_c3_ward_skip (fun _ _ => (0 : ℚ))
  exact ⟨h1, h2 DistMetric.cosine 0 (by decide), h3 LinkMethod.single
    DistMetric.cosine (by decide)⟩

/-- C9: the sequence of rows produced by the grid loop is exactly the
iteration order with linkage methods as the outer loop and distance metrics
as the inner loop, one (method, metric, score) row per non-skipped
configuration and nothing else. -/
theorem claim_c9_row_order {α : Type} [LinearOrderedField α]
    (score : LinkMethod → DistMetric → α) :
    runGrid (fun m met => .ok (score m met)) =
      .ok (linkage_methods.flatMap (fun m =>
        distance_metrics.filterMap (fun met =>
          if skipPair m met then none else some (m, met, score m met)))) :=
  runGrid_ok score

/-- C6 counterexample: with an evaluation that fails (with a genuine
DegenerateVectorError) only on the (single, cosine) configuration and
succeeds on every other configuration, the grid loop aborts with that error:
no result sequence is produced, so the remaining configurations (all of
complete, average and ward) are not evaluated and collected, contrary to the
claimed partial-failure isolation. -/
theorem claim_c6_counterexample :
    runGrid evalBad = .error .degenerateVector := by decide

/-- C6 amended: if evaluating one (non-skipped) configuration of the grid
fails, the loop aborts at that configuration: runGrid returns an error and no
result sequence is produced for any configuration. -/
theorem claim_c6_amended {α : Type} [LinearOrderedField α]
    (eval : LinkMethod → DistMetric → Except Err α) (m : LinkMethod)
    (met : DistMetric) (e : Err) (hm : m ∈ linkage_methods)
    (hmet : met ∈ distance_metrics) (hskip : ¬ skipPair m met)
    (herr : eval m met = .error e) :
    (∃ e2, runGrid eval = .error e2) ∧ ∀ rows, runGrid eval ≠ .ok rows := by
  obtain ⟨e2, he2⟩ := runGrid_error hm hmet hskip herr
  refine ⟨⟨e2, he2⟩, fun rows hrows => ?_⟩
  rw [he2] at hrows
  exact absurd hrows (by simp)

/-- Witness for the amended C6 at the concrete failing evaluation. -/
theorem claim_c6_amended_witness :
    (∃ e2, runGrid evalBad = .error e2) ∧ ∀ rows, runGrid evalBad ≠ .ok rows :=
  claim_c6_amended evalBad LinkMethod.single DistMetric.cosine
    Err.degenerateVector (by decide) (by decide) (by decide) (by decide)

/-- C7: cosine distance has an explicit zero-norm guard: for any input pair in
which either vector is the zero vector it fails with DegenerateVectorError
(no unguarded division), and on vectors of nonzero norm it returns
1 - (x.y)/(|x| |y|). -/
theorem claim_c7_cosine_guard (x y : List ℚ) :
    (((∀ a ∈ x, a = 0) ∨ (∀ a ∈ y, a = 0)) →
      cosineDist x y = .error .degenerateVector) ∧
    (normSq x ≠ 0 → normSq y ≠ 0 →
      cosineDist x y = .ok (1 - (dotL x y : ℝ) /
        (Real.sqrt ((normSq x : ℚ) : ℝ) * Real.sqrt ((normSq y : ℚ) : ℝ)))) := by
  constructor
  · intro h
    unfold cosineDist
    rw [if_pos]
    rcases h with h | h
    · exact Or.inl ((normSq_eq_zero_iff x).mpr h)
    · exact Or.inr ((normSq_eq_zero_iff y).mpr h)
  · intro hx hy
    unfold cosineDist
    rw [if_neg]
    push_neg
    exact ⟨hx, hy⟩

/-- Witness for C7: a zero vector triggers the guard, nonzero vectors get the
formula. -/
theorem claim_c7_witness :
    cosineDist [0, 0] [1, 2] = .error .degenerateVector ∧
      cosineDist [1] [1] = .ok (1 - (dotL [1] [1] : ℝ) /
        (Real.sqrt ((normSq [1] : ℚ) : ℝ) * Real.sqrt ((normSq [1] : ℚ) : ℝ))) :=
  ⟨(claim_c7_cosine_guard [0, 0] [1, 2]).1 (Or.inl (by simp)),
    (claim_c7_cosine_guard [1] [1]).2 (by simp [normSq, dotL])
      (by simp [normSq, dotL])⟩

/-- C8: the silhouette scorer fails with an explicit SingleClusterError
whenever the label assignment has fewer than 2 distinct labels, and for at
least 2 distinct labels returns the mean of the per-point silhouette
values. -/
theorem claim_c8_silhouette_guard {α : Type} [LinearOrderedField α]
    (d : ℕ → ℕ → α) (labels : List ℕ) :
    (labels.dedup.length < 2 →
      silhouetteScore d labels = .error .singleCluster) ∧
    (2 ≤ labels.dedup.length → silhouetteScore d labels =
      .ok (meanL ((List.range labels.length).map (silPoint d labels)))) := by
  constructor
  · intro h
    unfold silhouetteScore
    rw [if_pos h]
  · intro h
    unfold silhouetteScore
    rw [if_neg (by omega)]

/-- Witness for C8: a single-cluster assignment fails, a two-cluster
assignment returns the mean silhouette. -/
theorem claim_c8_witness :
    silhouetteScore dTwo [1, 1, 1] = .error .singleCluster ∧
      silhouetteScore dTwo [1, 2] =
        .ok (meanL ((List.range ([1, 2] : List ℕ).length).map
          (silPoint dTwo [1, 2]))) :=
  ⟨(claim_c8_silhouette_guard dTwo [1, 1, 1]).1 (by decide),
    (claim_c8_silhouette_guard dTwo [1, 2]).2 (by decide)⟩

/-- C10: every row collected by the grid loop is metric-consistent: its score
is the silhouette score, computed under the row's own metric distance
function, of the labels extracted from the linkage built under that same
metric distance function. -/
theorem claim_c10_metric_consistency {α : Type} [LinearOrderedField α]
    (dOf : DistMetric → ℕ → ℕ → α) (X : ℕ → List α) (n k : ℕ)
    (rows : List (Row α)) (h : runGrid (evalConfig dOf X n k) = .ok rows) :
    ∀ m met q, (m, met, q) ∈ rows →
      ∃ labels, fclusterByCount (linkageBuilder m (dOf met) X n) n k = .ok labels ∧
        silhouetteScore (dOf met) labels = .ok q := by
  intro m met q hmem
  have hres := runGrid_ok_inv h (m, met, q) hmem
  exact evalConfig_ok_inv hres

/-- Witness for C10 on a successful two-point grid run. -/
theorem claim_c10_witness :
    ∃ labels, fclusterByCount (linkageBuilder LinkMethod.single dTwo xTwo 2) 2 2 =
        .ok labels ∧ silhouetteScore dTwo labels = .ok 1 := by
  have h := claim_c10_metric_consistency (fun _ => dTwo) xTwo 2 2 _ runGrid_two
  exact h LinkMethod.single DistMetric.euclidean 1 (by decide)

end Claims

end HierClust
